import Mathlib

/-!
# Verification of the pstree snapshot builder

Shallow embedding of the `pstree` Go package (richest variant: the one with
auxiliary fields environ / cwd / cmdline).  File-system access (the procfs
substrate) is abstracted as an explicit backing state `FS`; Go map iteration
order, which is nondeterministic, is an explicit `List Int` parameter of the
link and sort loops, constrained in theorems to be a permutation of the keys.
-/

namespace Pstree

/-- Outcome classes of a raw file read (`os.ReadFile` / `os.Stat` / `os.Open`):
the code distinguishes only success, permission errors
(`errors.Is(err, os.ErrPermission)`) and everything else; "not found" is kept
separate so that claims about vanished processes can name it. -/
inductive ReadErr where
  | notFound
  | permission
  | other
  deriving DecidableEq

/-- Backing state of one build: the result of `filepath.Glob("/proc/[0-9]*")`
and the contents (or read outcome) of the per-process files.  `cwdStat` models
the outcome of `os.Stat(dir/cwd)`; its success value carries no data because
the Go code only uses `fi.Name()`, the base name of the queried path. -/
structure FS where
  dirs : List String
  statf : String → Except ReadErr String
  environ : String → Except ReadErr String
  cwdStat : String → Except ReadErr Unit
  cmdline : String → Except ReadErr String

/-- Go struct `ProcessStat` of the source: every numeric field is modelled as `Int`
(the Go widths are enforced by the range check `rangedOK` at parse time,
mirroring `fmt.Sscanf` overflow errors). -/
structure ProcessStat where
  PID : Int := 0
  Comm : String := ""
  State : Char := '\x00'
  Ppid : Int := 0
  Pgrp : Int := 0
  Session : Int := 0
  TTY : Int := 0
  Tpgid : Int := 0
  Flags : Int := 0
  Minflt : Int := 0
  Cminflt : Int := 0
  Majflt : Int := 0
  Cmajflt : Int := 0
  Utime : Int := 0
  Stime : Int := 0
  Cutime : Int := 0
  Cstime : Int := 0
  Priority : Int := 0
  Nice : Int := 0
  Nthreads : Int := 0
  Itrealval : Int := 0
  Starttime : Int := 0
  Vsize : Int := 0
  RSS : Int := 0
  Environ : String := ""
  Cwd : String := ""
  Cmdline : String := ""
  deriving DecidableEq

/-- Go struct `Process` of the source (`Name`, `Stat`, `Children`). -/
structure Process where
  Name : String := ""
  Stat : ProcessStat := {}
  Children : List Int := []
  deriving DecidableEq

/-- The Go `map[int]Process`, as an association list with unique keys. -/
abbrev PMap := List (Int × Process)

/-- Map lookup, `procs[k]`. -/
def pmLookup : PMap → Int → Option Process
  | [], _ => none
  | (k, v) :: rest, q => if k = q then some v else pmLookup rest q

/-- Map store, `procs[k] = v`: replaces in place, else appends. -/
def pmInsert : PMap → Int → Process → PMap
  | [], k, v => [(k, v)]
  | (k0, v0) :: rest, k, v =>
    if k0 = k then (k, v) :: rest else (k0, v0) :: pmInsert rest k v

/-- The key set of the map, as a list. -/
def pmKeys (m : PMap) : List Int := m.map Prod.fst

/-- Go struct `Tree` of the source. -/
structure Tree where
  Procs : PMap
  deriving DecidableEq

/-! ## Character-level parsing primitives -/

/-- The whitespace class of Go scanning verbs ("space" in the `fmt` scanning
documentation): the full Unicode White_Space set of the `fmt` package's
space table, except newline - a newline in the input would have to match a
newline in the format, and `statfmt` has none, so a newline never counts as
matchable space here. -/
def scanIsSpace (c : Char) : Bool :=
  c = ' ' || c = '\t' || c = '\u000B' || c = '\u000C' || c = '\r' ||
  c = '\u0085' || c = '\u00A0' || c = '\u1680' || c = '\u2000' ||
  c = '\u2001' || c = '\u2002' || c = '\u2003' || c = '\u2004' ||
  c = '\u2005' || c = '\u2006' || c = '\u2007' || c = '\u2008' ||
  c = '\u2009' || c = '\u200A' || c = '\u2028' || c = '\u2029' ||
  c = '\u202F' || c = '\u205F' || c = '\u3000'

/-- The whitespace class of `strings.TrimSpace` / `unicode.IsSpace`: the
full Unicode White_Space set, newline included. -/
def goIsSpace (c : Char) : Bool :=
  c = ' ' || c = '\t' || c = '\n' || c = '\u000B' || c = '\u000C' ||
  c = '\r' || c = '\u0085' || c = '\u00A0' || c = '\u1680' ||
  c = '\u2000' || c = '\u2001' || c = '\u2002' || c = '\u2003' ||
  c = '\u2004' || c = '\u2005' || c = '\u2006' || c = '\u2007' ||
  c = '\u2008' || c = '\u2009' || c = '\u200A' || c = '\u2028' ||
  c = '\u2029' || c = '\u202F' || c = '\u205F' || c = '\u3000'

/-- Worker of `fieldsFuncChars`, carrying the current field reversed
(structural recursion, so that concrete runs evaluate by kernel
reduction). -/
def fieldsFuncAux (p : Char → Bool) : List Char → List Char → List (List Char)
  | [], acc => if acc.isEmpty then [] else [acc.reverse]
  | c :: cs, acc =>
    if p c then
      if acc.isEmpty then fieldsFuncAux p cs []
      else acc.reverse :: fieldsFuncAux p cs []
    else fieldsFuncAux p cs (c :: acc)

/-- Model of `strings.FieldsFunc`: split around runs of separator characters,
dropping empty fields. -/
def fieldsFuncChars (p : Char → Bool) (l : List Char) : List (List Char) :=
  fieldsFuncAux p l []

/-- Model of `strings.TrimSpace` on a character list. -/
def trimChars (l : List Char) : List Char :=
  ((l.dropWhile goIsSpace).reverse.dropWhile goIsSpace).reverse

/-- Accumulating decimal-digit reader: consumes the maximal digit run. -/
def digitsVal : Nat → List Char → Nat × List Char
  | acc, [] => (acc, [])
  | acc, c :: cs =>
    if c.isDigit then digitsVal (acc * 10 + (c.toNat - 48)) cs else (acc, c :: cs)

/-- Unsigned decimal numeral: requires at least one digit, maximal munch. -/
def parseUIntTok (s : List Char) : Option (Nat × List Char) :=
  match s with
  | [] => none
  | c :: _ => if c.isDigit then some (digitsVal 0 s) else none

/-- A `%d`-style integer token: optional sign, then at least one digit,
stopping at the first non-digit (also the shape accepted by
`strconv.Atoi` when it consumes the whole string). -/
def parseIntTok (s : List Char) : Option (Int × List Char) :=
  match s with
  | [] => none
  | c :: cs =>
    if c = '-' then (parseUIntTok cs).map (fun p => (-(p.1 : Int), p.2))
    else if c = '+' then (parseUIntTok cs).map (fun p => ((p.1 : Int), p.2))
    else (parseUIntTok s).map (fun p => ((p.1 : Int), p.2))

/-- The `" %d"` loop of `fmt.Sscanf` on `statfmt`: each round first matches
the format's space, which per the Go scanning rules must consume at least one
input space unless the input is exhausted, then scans an integer (which
itself discards leading spaces).  Trailing unconsumed input after the last
round is ignored by `Sscanf`, hence returned. -/
def parseInts : Nat → List Char → Option (List Int × List Char)
  | 0, s => some ([], s)
  | _ + 1, [] => none
  | n + 1, c :: s =>
    if scanIsSpace c then
      match parseIntTok (s.dropWhile scanIsSpace) with
      | none => none
      | some (v, rest) =>
        match parseInts n rest with
        | none => none
        | some (vs, r) => some (v :: vs, r)
    else none

/-- Model of `fmt.Sscanf(info[2], statfmt, ...)`: `%c` takes the very next character,
then 21 space-separated integers. -/
def parseStatTail (s : List Char) : Option (Char × List Int) :=
  match s with
  | [] => none
  | c :: rest =>
    match parseInts 21 rest with
    | none => none
    | some (vs, _) => some (c, vs)

/-- Width constraints of the Go struct fields, by position among the 21
integers of `statfmt` (signed 64-bit for the `int`/`int64` fields,
unsigned 32-bit for `Flags`, unsigned 64-bit for the `uint64` fields);
`fmt.Sscanf` rejects a value outside the target type's range. -/
def fieldInRange (i : Nat) (v : Int) : Bool :=
  if i = 5 then decide (0 ≤ v) && decide (v ≤ 4294967295)
  else if 5 < i && (i ≤ 11 || i = 19) then
    decide (0 ≤ v) && decide (v ≤ 18446744073709551615)
  else decide (-9223372036854775808 ≤ v) && decide (v ≤ 9223372036854775807)

/-- Range check of all 21 parsed integers, positions counted from `i`. -/
def rangedOK : Nat → List Int → Bool
  | _, [] => true
  | i, v :: vs => fieldInRange i v && rangedOK (i + 1) vs

/-- Model of `strconv.Atoi`: an optionally signed decimal numeral spanning the whole
string (64-bit range). -/
def goAtoi (s : List Char) : Option Int :=
  match parseIntTok s with
  | some (v, []) =>
    if fieldInRange 0 v then some v else none
  | _ => none

/-! ## Base64 and path helpers -/

/-- UTF-8 encoding of one code point, as byte values (Go strings are UTF-8;
`base64` runs over the raw bytes). -/
def utf8EncodeCharNat (n : Nat) : List Nat :=
  if n < 128 then [n]
  else if n < 2048 then [192 + n / 64, 128 + n % 64]
  else if n < 65536 then [224 + n / 4096, 128 + n / 64 % 64, 128 + n % 64]
  else [240 + n / 262144, 128 + n / 4096 % 64, 128 + n / 64 % 64, 128 + n % 64]

/-- The UTF-8 bytes of a string (Go `[]byte(s)`). -/
def utf8Bytes (s : String) : List Nat :=
  (s.data.map (fun c => utf8EncodeCharNat c.toNat)).flatten

/-- The standard base64 alphabet. -/
def b64Alpha : List Char :=
  "ABCDEFGHIJKLMNOPQRSTUVWXYZabcdefghijklmnopqrstuvwxyz0123456789+/".data

/-- Sextet to alphabet character. -/
def b64Char (n : Nat) : Char := b64Alpha.getD n 'A'

/-- The `encoding/base64` StdEncoding over a byte list, with padding. -/
def b64Chunks : List Nat → List Char
  | [] => []
  | [a] => [b64Char (a / 4), b64Char (a % 4 * 16), '=', '=']
  | [a, b] => [b64Char (a / 4), b64Char (a % 4 * 16 + b / 16), b64Char (b % 16 * 4), '=']
  | a :: b :: c :: rest =>
    b64Char (a / 4) :: b64Char (a % 4 * 16 + b / 16) ::
      b64Char (b % 16 * 4 + c / 64) :: b64Char (c % 64) :: b64Chunks rest

/-- Model of `base64.StdEncoding.EncodeToString([]byte(s))`. -/
def base64encStr (s : String) : String := String.mk (b64Chunks (utf8Bytes s))

/-- Model of `filepath.Join(dir, file)` for the simple two-component case used here. -/
def join2 (dir file : String) : String := dir ++ "/" ++ file

/-- The `filepath.Base`-like base name, as used by `FileInfo.Name()`. -/
def baseName (s : String) : String :=
  String.mk ((s.data.reverse.takeWhile (fun c => c ≠ '/')).reverse)

/-! ## The scanner -/

/-- The separator predicate of the `FieldsFunc` call in `scan`. -/
def parenSep (r : Char) : Bool := r = '(' || r = ')'

/-- The auxiliary-field phase of `scan`: environ (base64, permission errors
tolerated), cwd (`os.Stat`, permission errors tolerated, stores the base name
of the queried path), cmdline (base64, every read error fatal).  The `%w`
cause wrapped into each Go error message is abstracted away; the prefix
naming the path is kept verbatim. -/
def scanAux (fs : FS) (dir : String) (p0 : Process) : Except String Process :=
  let environ := join2 dir "environ"
  let step1 : Except String Process :=
    match fs.environ dir with
    | .ok env => .ok { p0 with Stat := { p0.Stat with Environ := base64encStr env } }
    | .error .permission => .ok p0
    | .error _ => .error ("could not parse file " ++ environ)
  match step1 with
  | .error e => .error e
  | .ok p1 =>
    let cwd := join2 dir "cwd"
    let step2 : Except String Process :=
      match fs.cwdStat dir with
      | .ok _ => .ok { p1 with Stat := { p1.Stat with Cwd := baseName cwd } }
      | .error .permission => .ok p1
      | .error _ => .error ("could not stat " ++ cwd)
    match step2 with
    | .error e => .error e
    | .ok p2 =>
      let cmdline := join2 dir "cmdline"
      match fs.cmdline dir with
      | .ok args =>
        .ok { p2 with Stat := { p2.Stat with Cmdline := base64encStr args } }
      | .error _ => .error ("could not read " ++ cmdline)

/-- Model of `scan(dir)`: read `dir/stat` (any failure means the process vanished:
sentinel `Process{}` and no error), split on parentheses requiring exactly
three parts, trim each, parse the pid, take the middle part as `Comm`,
`Sscanf` the tail, then the auxiliary reads, and finally `Name = Comm`.
On error the Go function returns a partially filled `Process` alongside a
non-nil error which every caller checks first, so the partial value is
dropped here. -/
def scan (fs : FS) (dir : String) : Except String Process :=
  let stat := join2 dir "stat"
  match fs.statf dir with
  | .error _ => .ok {}
  | .ok data =>
    match fieldsFuncChars parenSep data.data with
    | [i0, i1, i2] =>
      let t0 := trimChars i0
      let t1 := trimChars i1
      let t2 := trimChars i2
      match goAtoi t0 with
      | none =>
        .error (stat ++ ": invalid pid format \"" ++ String.mk t0 ++ "\"")
      | some pid =>
        match parseStatTail t2 with
        | none => .error ("could not parse file " ++ stat)
        | some (st, vs) =>
          if rangedOK 0 vs then
            match vs with
            | [ppid, pgrp, session, tty, tpgid, flags, minflt, cminflt,
               majflt, cmajflt, utime, stime, cutime, cstime, priority,
               nice, nthreads, itrealval, starttime, vsize, rss] =>
              let p0 : Process :=
                { Stat :=
                  { PID := pid, Comm := String.mk t1, State := st,
                    Ppid := ppid, Pgrp := pgrp, Session := session,
                    TTY := tty, Tpgid := tpgid, Flags := flags,
                    Minflt := minflt, Cminflt := cminflt, Majflt := majflt,
                    Cmajflt := cmajflt, Utime := utime, Stime := stime,
                    Cutime := cutime, Cstime := cstime, Priority := priority,
                    Nice := nice, Nthreads := nthreads,
                    Itrealval := itrealval, Starttime := starttime,
                    Vsize := vsize, RSS := rss } }
              match scanAux fs dir p0 with
              | .error e => .error e
              | .ok p =>
                .ok { p with Name := p.Stat.Comm }
            | _ => .error ("could not parse file " ++ stat)
          else .error ("could not parse file " ++ stat)
    | _ => .error (stat ++ ": file format invalid")

/-! ## The build (`New`) -/

/-- The scan loop of `New`: scan each dir, wrap scan errors with the dir,
skip sentinel results (`PID == 0`), store the rest keyed by `PID`. -/
def scanGo (fs : FS) : List String → PMap → Except String PMap
  | [], m => .ok m
  | dir :: rest, m =>
    match scan fs dir with
    | .error e => .error ("could not scan " ++ dir ++ ": " ++ e)
    | .ok proc =>
      if proc.Stat.PID = 0 then scanGo fs rest m
      else scanGo fs rest (pmInsert m proc.Stat.PID proc)

/-- The scan phase of `New`. -/
def scanPhase (fs : FS) : Except String PMap := scanGo fs fs.dirs []

/-- The missing-parent error message of `New`. -/
def missingParentMsg (ppid pid : Int) : String :=
  "pstree: parent pid=" ++ toString ppid ++ " of pid=" ++ toString pid ++
    " does not exist"

/-- One round of the link loop of `New`, at map key `pid`: read the entry as
it currently stands, skip it when its parent id is zero, fail when the parent
id is not a key, otherwise append `pid` to the parent's children and store
the parent back under its own `PID` field. -/
def linkStep (m : PMap) (pid : Int) : Except String PMap :=
  match pmLookup m pid with
  | none => .ok m
  | some proc =>
    if proc.Stat.Ppid = 0 then .ok m
    else
      match pmLookup m proc.Stat.Ppid with
      | none => .error (missingParentMsg proc.Stat.Ppid pid)
      | some parent =>
        .ok (pmInsert m parent.Stat.PID
          { parent with Children := parent.Children ++ [pid] })

/-- The link loop of `New`, iterating the map in the order `order` (Go map
iteration order is nondeterministic; an entry updated before being reached is
seen updated, which the per-step `pmLookup` reproduces). -/
def link (m : PMap) : List Int → Except String PMap
  | [] => .ok m
  | pid :: rest =>
    match linkStep m pid with
    | .error e => .error e
    | .ok m2 => link m2 rest

/-- Model of `sort.Ints`. -/
def sortInts (l : List Int) : List Int := List.insertionSort (· ≤ ·) l

/-- The normalization loop of `New`: sort each children list (the Go source
guards with `len > 0`, a no-op since sorting an empty list is the identity)
and store the entry back; again iterated in an explicit order. -/
def sortPass (m : PMap) : List Int → PMap
  | [] => m
  | pid :: rest =>
    match pmLookup m pid with
    | none => sortPass m rest
    | some proc =>
      if proc.Children.length > 0 then
        sortPass (pmInsert m pid { proc with Children := sortInts proc.Children }) rest
      else sortPass (pmInsert m pid proc) rest

/-- Model of `New()`: scan every dir of the glob, link, normalize; `o1` and `o2` are
the iteration orders of the two map loops. -/
def newTree (fs : FS) (o1 o2 : List Int) : Except String Tree :=
  match scanPhase fs with
  | .error e => .error e
  | .ok procs =>
    match link procs o1 with
    | .error e => .error e
    | .ok procs2 => .ok ⟨sortPass procs2 o2⟩

/-- Success test on a build result. -/
def exOk {α : Type} : Except String α → Bool
  | .ok _ => true
  | .error _ => false

/-- The error message of a failed result, when any. -/
def exErr {α : Type} : Except String α → Option String
  | .ok _ => none
  | .error e => some e

/-- The tree of a successful build result (junk tree on error). -/
def getTree : Except String Tree → Tree
  | .ok t => t
  | .error _ => ⟨[]⟩

/-- The map of a successful scan phase (junk on error). -/
def getMap : Except String PMap → PMap
  | .ok m => m
  | .error _ => []

/-- A valid Go map iteration order: a permutation of the key list. -/
def ValidOrder (m : PMap) (o : List Int) : Prop := o.Perm (pmKeys m)

instance (m : PMap) (o : List Int) : Decidable (ValidOrder m o) := by
  unfold ValidOrder
  exact List.decidablePerm o (pmKeys m)

/-! ## Spec-side notions used to state the claims -/

/-- The whitespace-separated fields of a record section (the spec's notion of
"positional fields"). -/
def tokens (l : List Char) : List (List Char) := fieldsFuncChars scanIsSpace l

/-- A field that is entirely an optionally signed decimal numeral. -/
def tokNum (t : List Char) : Bool :=
  match parseIntTok t with
  | some (_, []) => true
  | _ => false

/-- A field that begins with an optionally signed decimal numeral. -/
def startsNum (t : List Char) : Bool := (parseIntTok t).isSome

/-- Predicate: `needle` occurs inside `hay` (used to say an error message names a
path). -/
def mentions (hay needle : String) : Prop := needle.data <:+: hay.data

/-! ## Invariant predicates on maps -/

/-- Every stored process is keyed by its own pid field. -/
def Keyed (m : PMap) : Prop :=
  ∀ k p, pmLookup m k = some p → p.Stat.PID = k

/-- No key is zero. -/
def NoZero (m : PMap) : Prop :=
  ∀ k p, pmLookup m k = some p → k ≠ 0

/-- Every stored process still has an empty children list. -/
def Fresh (m : PMap) : Prop :=
  ∀ k p, pmLookup m k = some p → p.Children = []

/-- Predicate: `p` is recorded (in map `m`) as a child of `q`: `p` has an entry whose
parent id is `q`. -/
def childB (m : PMap) (p q : Int) : Bool :=
  match pmLookup m p with
  | some C => decide (C.Stat.Ppid = q)
  | none => false

/-- Predicate: `k` has an entry whose parent id is nonzero and unresolvable in `m`. -/
def badParent (m : PMap) (k : Int) : Bool :=
  match pmLookup m k with
  | some C => !decide (C.Stat.Ppid = 0) && (pmLookup m C.Stat.Ppid).isNone
  | none => false

/-! ## Concrete backing states used as witnesses and counterexamples -/

/-- A well-formed record for pid 1 (no tracked parent). -/
def statRec1 : String :=
  "1 (init) S 0 1 1 0 -1 4194560 0 0 0 0 0 0 0 0 20 0 1 0 0 0 0"

/-- A well-formed record for pid 2, child of 1. -/
def statRec2 : String :=
  "2 (bash) S 1 1 1 0 -1 0 5 0 0 0 0 0 0 0 20 0 1 0 3 0 0"

/-- A well-formed record for pid 3, child of 1, name with a space. -/
def statRec3 : String :=
  "3 (vim x) R 1 1 1 0 -1 0 0 0 0 0 0 0 0 0 20 0 1 0 4 0 0"

/-- Backing state with exactly three healthy processes 1, 2, 3 of parent
ids 0, 1, 1. -/
def fsTriple : FS :=
  { dirs := ["p1", "p2", "p3"]
  , statf := fun d =>
      if d = "p1" then .ok statRec1
      else if d = "p2" then .ok statRec2
      else if d = "p3" then .ok statRec3
      else .error .notFound
  , environ := fun _ => .ok ""
  , cwdStat := fun _ => .ok ()
  , cmdline := fun _ => .ok "" }

/-- The scanned map of `fsTriple`. -/
def mTriple : PMap := getMap (scanPhase fsTriple)

/-- The record of the C1 round-trip test: a name with embedded parentheses
and whitespace, followed by a fully valid 22-field positional section. -/
def recParens : String :=
  "42 (my) weird (proc) name S 1 42 42 0 -1 4194560 0 0 0 0 0 0 0 0 20 0 1 0 0 0 0"

/-- Backing state serving the C1 record. -/
def fsParens : FS :=
  { dirs := ["p42"]
  , statf := fun _ => .ok recParens
  , environ := fun _ => .ok ""
  , cwdStat := fun _ => .ok ()
  , cmdline := fun _ => .ok "" }

/-- A record whose final positional field carries a non-numeric suffix. -/
def recTrailingJunk : String :=
  "5 (a) S 1 1 1 0 -1 0 0 0 0 0 0 0 0 0 20 0 1 0 0 0 7x"

/-- Backing state for the trailing-junk record (with a parent entry so the
whole build also succeeds). -/
def fsTrailingJunk : FS :=
  { dirs := ["p1", "p5"]
  , statf := fun d =>
      if d = "p1" then .ok statRec1 else .ok recTrailingJunk
  , environ := fun _ => .ok ""
  , cwdStat := fun _ => .ok ()
  , cmdline := fun _ => .ok "" }

/-- A record with far fewer than 22 positional fields. -/
def recShort : String := "6 (b) S 1 1"

/-- Backing state serving the short record. -/
def fsShort : FS :=
  { dirs := ["p6"]
  , statf := fun _ => .ok recShort
  , environ := fun _ => .ok ""
  , cwdStat := fun _ => .ok ()
  , cmdline := fun _ => .ok "" }

/-- Backing state where every auxiliary read is permission-denied. -/
def fsAuxPerm : FS :=
  { dirs := ["p1"]
  , statf := fun _ => .ok statRec1
  , environ := fun _ => .error .permission
  , cwdStat := fun _ => .error .permission
  , cmdline := fun _ => .error .permission }

/-- Backing state where environ and cwd are permission-denied but cmdline is
readable. -/
def fsAuxPerm2 : FS :=
  { dirs := ["p1"]
  , statf := fun _ => .ok statRec1
  , environ := fun _ => .error .permission
  , cwdStat := fun _ => .error .permission
  , cmdline := fun _ => .ok "" }

/-- Backing state where the primary record is unreadable (vanished). -/
def fsVanished : FS :=
  { dirs := ["p9"]
  , statf := fun _ => .error .notFound
  , environ := fun _ => .ok ""
  , cwdStat := fun _ => .ok ()
  , cmdline := fun _ => .ok "" }

/-- A single process whose parent id 9 was never scanned. -/
def recOrphan : String :=
  "7 (c) S 9 1 1 0 -1 0 0 0 0 0 0 0 0 0 20 0 1 0 0 0 0"

/-- Backing state with a missing parent. -/
def fsOrphan : FS :=
  { dirs := ["p7"]
  , statf := fun _ => .ok recOrphan
  , environ := fun _ => .ok ""
  , cwdStat := fun _ => .ok ()
  , cmdline := fun _ => .ok "" }

/-- The scanned map of `fsOrphan`. -/
def mOrphan : PMap := getMap (scanPhase fsOrphan)

/-! ## Association-list map lemmas -/

theorem pmLookup_insert_self (m : PMap) (k : Int) (v : Process) :
    pmLookup (pmInsert m k v) k = some v := by
  induction m with
  | nil => simp [pmInsert, pmLookup]
  | cons hd tl ih =>
    obtain ⟨k0, v0⟩ := hd
    by_cases h : k0 = k
    · subst h
      simp [pmInsert, pmLookup]
    · simp [pmInsert, pmLookup, h, ih]

theorem pmLookup_insert_ne (m : PMap) (k : Int) (v : Process) (q : Int)
    (h : k ≠ q) : pmLookup (pmInsert m k v) q = pmLookup m q := by
  induction m with
  | nil => simp [pmInsert, pmLookup, h]
  | cons hd tl ih =>
    obtain ⟨k0, v0⟩ := hd
    by_cases h0 : k0 = k
    · subst h0
      simp [pmInsert, pmLookup, h]
    · simp only [pmInsert, if_neg h0]
      by_cases hq : k0 = q
      · simp [pmLookup, hq]
      · simp [pmLookup, hq, ih]

theorem mem_pmKeys_of_lookup {m : PMap} {k : Int} {p : Process}
    (h : pmLookup m k = some p) : k ∈ pmKeys m := by
  induction m with
  | nil => simp [pmLookup] at h
  | cons hd tl ih =>
    obtain ⟨k0, v0⟩ := hd
    by_cases h0 : k0 = k
    · subst h0
      simp [pmKeys]
    · simp only [pmLookup, if_neg h0] at h
      simp [pmKeys] at ih ⊢
      right
      simpa [pmKeys] using ih h

theorem lookup_isSome_of_mem_pmKeys {m : PMap} {k : Int}
    (h : k ∈ pmKeys m) : (pmLookup m k).isSome := by
  induction m with
  | nil => simp [pmKeys] at h
  | cons hd tl ih =>
    obtain ⟨k0, v0⟩ := hd
    by_cases h0 : k0 = k
    · subst h0
      simp [pmLookup]
    · simp [pmKeys, Ne.symm h0] at h
      simp only [pmLookup, if_neg h0]
      exact ih (by simpa [pmKeys] using h)

theorem pmKeys_cons (a : Int) (b : Process) (tl : PMap) :
    pmKeys ((a, b) :: tl) = a :: pmKeys tl := rfl

theorem pmKeys_insert_of_mem {m : PMap} {k : Int} (v : Process)
    (h : k ∈ pmKeys m) : pmKeys (pmInsert m k v) = pmKeys m := by
  induction m with
  | nil => simp [pmKeys] at h
  | cons hd tl ih =>
    obtain ⟨k0, v0⟩ := hd
    by_cases h0 : k0 = k
    · subst h0
      simp [pmInsert, pmKeys]
    · rw [pmKeys_cons, List.mem_cons] at h
      rcases h with h1 | h2
      · exact absurd h1.symm h0
      · simp only [pmInsert, if_neg h0, pmKeys_cons, ih h2]

theorem pmKeys_insert_of_not_mem {m : PMap} {k : Int} (v : Process)
    (h : k ∉ pmKeys m) : pmKeys (pmInsert m k v) = pmKeys m ++ [k] := by
  induction m with
  | nil => simp [pmInsert, pmKeys]
  | cons hd tl ih =>
    obtain ⟨k0, v0⟩ := hd
    rw [pmKeys_cons, List.mem_cons] at h
    push_neg at h
    have h0 : k0 ≠ k := fun e => h.1 e.symm
    simp only [pmInsert, if_neg h0, pmKeys_cons, ih h.2, List.cons_append]

theorem pmKeys_nodup_insert {m : PMap} {k : Int} (v : Process)
    (h : (pmKeys m).Nodup) : (pmKeys (pmInsert m k v)).Nodup := by
  by_cases hk : k ∈ pmKeys m
  · rw [pmKeys_insert_of_mem v hk]
    exact h
  · rw [pmKeys_insert_of_not_mem v hk]
    simp [List.nodup_append, h, hk]

theorem lookup_none_of_not_mem_pmKeys {m : PMap} {k : Int}
    (h : k ∉ pmKeys m) : pmLookup m k = none := by
  cases hl : pmLookup m k with
  | none => rfl
  | some p => exact absurd (mem_pmKeys_of_lookup hl) h

/-! ## Invariants of the map built by the scan phase -/

theorem scanAux_ok_preserves {fs : FS} {dir : String} {p0 p : Process}
    (h : scanAux fs dir p0 = .ok p) :
    p.Name = p0.Name ∧ p.Children = p0.Children ∧
    p.Stat.PID = p0.Stat.PID ∧ p.Stat.Ppid = p0.Stat.Ppid ∧
    p.Stat.Comm = p0.Stat.Comm := by
  simp only [scanAux] at h
  cases he : fs.environ dir with
  | ok env =>
    simp only [he] at h
    cases hc : fs.cwdStat dir with
    | ok u =>
      simp only [hc] at h
      cases hm : fs.cmdline dir with
      | ok args =>
        simp only [hm] at h
        cases h
        simp
      | error e => simp [hm] at h
    | error e =>
      cases e <;> simp only [hc] at h
      · simp at h
      · cases hm : fs.cmdline dir with
        | ok args =>
          simp only [hm] at h
          cases h
          simp
        | error e2 => simp [hm] at h
      · simp at h
  | error e =>
    cases e <;> simp only [he] at h
    · simp at h
    · cases hc : fs.cwdStat dir with
      | ok u =>
        simp only [hc] at h
        cases hm : fs.cmdline dir with
        | ok args =>
          simp only [hm] at h
          cases h
          simp
        | error e2 => simp [hm] at h
      | error e2 =>
        cases e2 <;> simp only [hc] at h
        · simp at h
        · cases hm : fs.cmdline dir with
          | ok args =>
            simp only [hm] at h
            cases h
            simp
          | error e3 => simp [hm] at h
        · simp at h
    · simp at h

theorem scan_ok_children {fs : FS} {dir : String} {p : Process}
    (h : scan fs dir = .ok p) : p.Children = [] := by
  simp only [scan] at h
  cases hs : fs.statf dir with
  | error e =>
    simp only [hs] at h
    cases h
    rfl
  | ok data =>
    simp only [hs] at h
    repeat' split at h
    all_goals try (exfalso; exact Except.noConfusion h)
    rename_i p2 heqa
    cases h
    simpa using (scanAux_ok_preserves heqa).2.1

theorem scanGo_wf {fs : FS} (dirs : List String) :
    ∀ (m : PMap), (pmKeys m).Nodup → Keyed m → NoZero m → Fresh m →
    ∀ m2, scanGo fs dirs m = .ok m2 →
    (pmKeys m2).Nodup ∧ Keyed m2 ∧ NoZero m2 ∧ Fresh m2 := by
  induction dirs with
  | nil =>
    intro m hn hk hz hf m2 h
    cases h
    exact ⟨hn, hk, hz, hf⟩
  | cons dir rest ih =>
    intro m hn hk hz hf m2 h
    simp only [scanGo] at h
    cases hsc : scan fs dir with
    | error e => simp [hsc] at h
    | ok proc =>
      simp only [hsc] at h
      by_cases hp : proc.Stat.PID = 0
      · rw [if_pos hp] at h
        exact ih m hn hk hz hf m2 h
      · rw [if_neg hp] at h
        refine ih _ ?_ ?_ ?_ ?_ m2 h
        · exact pmKeys_nodup_insert _ hn
        · intro k p hl
          by_cases hkk : proc.Stat.PID = k
          · subst hkk
            rw [pmLookup_insert_self] at hl
            cases hl
            rfl
          · rw [pmLookup_insert_ne _ _ _ _ hkk] at hl
            exact hk k p hl
        · intro k p hl
          by_cases hkk : proc.Stat.PID = k
          · subst hkk
            exact hp
          · rw [pmLookup_insert_ne _ _ _ _ hkk] at hl
            exact hz k p hl
        · intro k p hl
          by_cases hkk : proc.Stat.PID = k
          · subst hkk
            rw [pmLookup_insert_self] at hl
            cases hl
            exact scan_ok_children hsc
          · rw [pmLookup_insert_ne _ _ _ _ hkk] at hl
            exact hf k p hl

theorem scanPhase_wf {fs : FS} {m : PMap} (h : scanPhase fs = .ok m) :
    (pmKeys m).Nodup ∧ Keyed m ∧ NoZero m ∧ Fresh m := by
  refine scanGo_wf fs.dirs [] ?_ ?_ ?_ ?_ m h
  · simp [pmKeys]
  · intro k p hl
    simp [pmLookup] at hl
  · intro k p hl
    simp [pmLookup] at hl
  · intro k p hl
    simp [pmLookup] at hl

/-! ## Characterization of the link loop -/

theorem append_nil_eta (P : Process) :
    { P with Children := P.Children ++ [] } = P := by
  simp

theorem linkStep_ok_lookup {m : PMap} {pid : Int} {m2 : PMap}
    (hk : Keyed m) (hz : NoZero m) (h : linkStep m pid = .ok m2) (q : Int) :
    pmLookup m2 q = (pmLookup m q).map
      (fun P => { P with
        Children := P.Children ++ if childB m pid q then [pid] else [] }) := by
  simp only [linkStep] at h
  cases hlp : pmLookup m pid with
  | none =>
    simp only [hlp] at h
    cases h
    simp only [childB, hlp]
    cases hq : pmLookup m q with
    | none => rfl
    | some P => simp [hq]
  | some proc =>
    simp only [hlp] at h
    by_cases hpp : proc.Stat.Ppid = 0
    · rw [if_pos hpp] at h
      cases h
      cases hq : pmLookup m q with
      | none => simp
      | some P =>
        have hq0 : q ≠ 0 := hz q P hq
        have hcb : childB m pid q = false := by
          simp only [childB, hlp, hpp, decide_eq_false_iff_not]
          exact Ne.symm hq0
        simp [hcb]
    · rw [if_neg hpp] at h
      cases hpar : pmLookup m proc.Stat.Ppid with
      | none => simp [hpar] at h
      | some parent =>
        simp only [hpar] at h
        cases h
        have hpk : parent.Stat.PID = proc.Stat.Ppid := hk _ _ hpar
        by_cases hq : q = proc.Stat.Ppid
        · rw [hq, hpk, pmLookup_insert_self, hpar]
          have hcb : childB m pid proc.Stat.Ppid = true := by
            simp [childB, hlp]
          simp [hcb]
        · rw [hpk, pmLookup_insert_ne _ _ _ _ (Ne.symm hq)]
          have hcb : childB m pid q = false := by
            simp only [childB, hlp, decide_eq_false_iff_not]
            exact Ne.symm hq
          cases hql : pmLookup m q with
          | none => simp
          | some P => simp [hcb]

theorem linkStep_ok_keyed {m : PMap} {pid : Int} {m2 : PMap}
    (hk : Keyed m) (hz : NoZero m) (h : linkStep m pid = .ok m2) :
    Keyed m2 ∧ NoZero m2 := by
  constructor
  · intro k p hl
    rw [linkStep_ok_lookup hk hz h k] at hl
    cases hq : pmLookup m k with
    | none => simp [hq] at hl
    | some P =>
      rw [hq] at hl
      simp only [Option.map_some'] at hl
      cases hl
      exact hk k P hq
  · intro k p hl
    rw [linkStep_ok_lookup hk hz h k] at hl
    cases hq : pmLookup m k with
    | none => simp [hq] at hl
    | some P => exact hz k P hq

theorem linkStep_ok_stats {m : PMap} {pid : Int} {m2 : PMap}
    (hk : Keyed m) (hz : NoZero m) (h : linkStep m pid = .ok m2) (q : Int) :
    (pmLookup m2 q).map (fun p => p.Stat) =
      (pmLookup m q).map (fun p => p.Stat) := by
  rw [linkStep_ok_lookup hk hz h q]
  cases hq : pmLookup m q <;> simp

theorem linkStep_ok_childB {m : PMap} {pid : Int} {m2 : PMap}
    (hk : Keyed m) (hz : NoZero m) (h : linkStep m pid = .ok m2)
    (p q : Int) : childB m2 p q = childB m p q := by
  have hs := linkStep_ok_stats hk hz h p
  simp only [childB]
  cases h1 : pmLookup m2 p with
  | none =>
    rw [h1] at hs
    cases h2 : pmLookup m p with
    | none => rfl
    | some C => rw [h2] at hs; simp at hs
  | some C =>
    rw [h1] at hs
    cases h2 : pmLookup m p with
    | none => rw [h2] at hs; simp at hs
    | some D =>
      rw [h2] at hs
      simp only [Option.map_some', Option.some_inj] at hs
      show decide (C.Stat.Ppid = q) = decide (D.Stat.Ppid = q)
      rw [hs]

theorem link_ok_lookup : ∀ (order : List Int) (m : PMap),
    Keyed m → NoZero m → ∀ m2, link m order = .ok m2 → ∀ q,
    pmLookup m2 q = (pmLookup m q).map
      (fun P => { P with
        Children := P.Children ++ order.filter (fun p => childB m p q) }) := by
  intro order
  induction order with
  | nil =>
    intro m hk hz m2 h q
    cases h
    cases hq : pmLookup m q with
    | none => rfl
    | some P => simp
  | cons pid rest ih =>
    intro m hk hz m2 h q
    simp only [link] at h
    cases hstep : linkStep m pid with
    | error e => simp [hstep] at h
    | ok m1 =>
      simp only [hstep] at h
      obtain ⟨hk1, hz1⟩ := linkStep_ok_keyed hk hz hstep
      have hrec := ih m1 hk1 hz1 m2 h q
      rw [hrec, linkStep_ok_lookup hk hz hstep q]
      have hcb : ∀ p, childB m1 p q = childB m p q :=
        fun p => linkStep_ok_childB hk hz hstep p q
      cases hq : pmLookup m q with
      | none => rfl
      | some P =>
        simp only [Option.map_some']
        congr 1
        have hfe : rest.filter (fun p => childB m1 p q) =
            rest.filter (fun p => childB m p q) :=
          List.filter_congr (fun p _ => by rw [hcb p])
        rw [hfe, List.filter_cons]
        by_cases hc : childB m pid q
        · simp [hc]
        · simp [hc]

theorem link_ok_parent_exists : ∀ (order : List Int) (m : PMap),
    Keyed m → NoZero m → ∀ m2, link m order = .ok m2 →
    ∀ pid ∈ order, ∀ C, pmLookup m pid = some C → C.Stat.Ppid ≠ 0 →
    (pmLookup m C.Stat.Ppid).isSome := by
  intro order
  induction order with
  | nil =>
    intro m _ _ m2 _ pid hmem
    simp at hmem
  | cons pid0 rest ih =>
    intro m hk hz m2 h pid hmem C hC hpp
    simp only [link] at h
    cases hstep : linkStep m pid0 with
    | error e => simp [hstep] at h
    | ok m1 =>
      simp only [hstep] at h
      rcases List.mem_cons.mp hmem with rfl | hmem2
      · -- the head: linkStep itself checked the parent
        simp only [linkStep, hC, if_neg hpp] at hstep
        cases hpar : pmLookup m C.Stat.Ppid with
        | none => simp [hpar] at hstep
        | some parent => simp
      · obtain ⟨hk1, hz1⟩ := linkStep_ok_keyed hk hz hstep
        have hC1 : pmLookup m1 pid = some
            { C with Children := C.Children ++
                if childB m pid0 pid then [pid0] else [] } := by
          rw [linkStep_ok_lookup hk hz hstep pid, hC]
          rfl
        have := ih m1 hk1 hz1 m2 h pid hmem2 _ hC1 hpp
        rw [linkStep_ok_lookup hk hz hstep] at this
        cases hpar : pmLookup m C.Stat.Ppid with
        | none => rw [hpar] at this; simp at this
        | some parent => simp

theorem link_error_missing : ∀ (order : List Int) (m : PMap),
    Keyed m → NoZero m → ∀ e, link m order = .error e →
    ∃ pid C, pid ∈ order ∧ pmLookup m pid = some C ∧ C.Stat.Ppid ≠ 0 ∧
      pmLookup m C.Stat.Ppid = none ∧
      e = missingParentMsg C.Stat.Ppid pid := by
  intro order
  induction order with
  | nil =>
    intro m _ _ e h
    simp [link] at h
  | cons pid0 rest ih =>
    intro m hk hz e h
    simp only [link] at h
    cases hstep : linkStep m pid0 with
    | error e0 =>
      simp only [hstep] at h
      cases h
      -- dissect the failing step
      simp only [linkStep] at hstep
      cases hC : pmLookup m pid0 with
      | none => simp [hC] at hstep
      | some C =>
        simp only [hC] at hstep
        by_cases hpp : C.Stat.Ppid = 0
        · rw [if_pos hpp] at hstep
          cases hstep
        · rw [if_neg hpp] at hstep
          cases hpar : pmLookup m C.Stat.Ppid with
          | none =>
            simp only [hpar] at hstep
            cases hstep
            exact ⟨pid0, C, by simp, hC, hpp, hpar, rfl⟩
          | some parent => simp [hpar] at hstep
    | ok m1 =>
      simp only [hstep] at h
      obtain ⟨hk1, hz1⟩ := linkStep_ok_keyed hk hz hstep
      obtain ⟨pid, C, hmem, hC1, hpp, hpar1, he⟩ := ih m1 hk1 hz1 e h
      rw [linkStep_ok_lookup hk hz hstep pid] at hC1
      cases hC : pmLookup m pid with
      | none => rw [hC] at hC1; simp at hC1
      | some C0 =>
        rw [hC] at hC1
        simp only [Option.map_some', Option.some_inj] at hC1
        have hstat : C.Stat = C0.Stat := by rw [← hC1]
        refine ⟨pid, C0, List.mem_cons_of_mem _ hmem, hC, ?_, ?_, ?_⟩
        · rw [← hstat]; exact hpp
        · rw [linkStep_ok_lookup hk hz hstep] at hpar1
          rw [← hstat]
          cases hpar : pmLookup m C.Stat.Ppid with
          | none => rfl
          | some parent => rw [hpar] at hpar1; simp at hpar1
        · rw [he, ← hstat]

/-! ## Characterization of the sort pass and of the whole build -/

theorem sortInts_sorted (l : List Int) : (sortInts l).Sorted (· ≤ ·) :=
  List.sorted_insertionSort _ l

theorem sortInts_perm (l : List Int) : (sortInts l).Perm l :=
  List.perm_insertionSort _ l

theorem sortInts_eq_of_perm {a b : List Int} (h : a.Perm b) :
    sortInts a = sortInts b :=
  List.eq_of_perm_of_sorted
    ((sortInts_perm a).trans (h.trans (sortInts_perm b).symm))
    (sortInts_sorted a) (sortInts_sorted b)

theorem sortPass_cons_some {m : PMap} {pid : Int} {P : Process}
    (rest : List Int) (h : pmLookup m pid = some P) :
    sortPass m (pid :: rest) =
      sortPass (pmInsert m pid { P with Children := sortInts P.Children })
        rest := by
  simp only [sortPass, h]
  by_cases hl : P.Children.length > 0
  · rw [if_pos hl]
  · rw [if_neg hl]
    have hc : P.Children = [] := by
      cases hc : P.Children with
      | nil => rfl
      | cons a as => rw [hc] at hl; simp at hl
    have he : { P with Children := sortInts P.Children } = P := by
      cases P with
      | mk n s c =>
        simp only at hc
        subst hc
        rfl
    rw [he]

theorem sortPass_lookup : ∀ (ord : List Int) (m : PMap), ord.Nodup → ∀ q,
    pmLookup (sortPass m ord) q =
      if q ∈ ord then
        (pmLookup m q).map (fun P => { P with Children := sortInts P.Children })
      else pmLookup m q := by
  intro ord
  induction ord with
  | nil =>
    intro m _ q
    simp [sortPass]
  | cons pid rest ih =>
    intro m hnd q
    have hnd2 : rest.Nodup := (List.nodup_cons.mp hnd).2
    have hpid : pid ∉ rest := (List.nodup_cons.mp hnd).1
    cases hP : pmLookup m pid with
    | none =>
      simp only [sortPass, hP]
      rw [ih m hnd2 q]
      by_cases hq : q ∈ rest
      · rw [if_pos hq, if_pos (List.mem_cons_of_mem _ hq)]
      · rw [if_neg hq]
        by_cases hq2 : q ∈ pid :: rest
        · have hqp : q = pid := by
            rcases List.mem_cons.mp hq2 with h | h
            · exact h
            · exact absurd h hq
          rw [if_pos hq2, hqp, hP]
          rfl
        · rw [if_neg hq2]
    | some P =>
      rw [sortPass_cons_some rest hP, ih _ hnd2 q]
      by_cases hq : q ∈ rest
      · rw [if_pos hq, if_pos (List.mem_cons_of_mem _ hq)]
        have hne : pid ≠ q := fun e => hpid (e ▸ hq)
        rw [pmLookup_insert_ne _ _ _ _ hne]
      · rw [if_neg hq]
        by_cases hq2 : q = pid
        · subst hq2
          rw [pmLookup_insert_self, if_pos (List.mem_cons_self _ _), hP]
          rfl
        · rw [pmLookup_insert_ne _ _ _ _ (Ne.symm hq2),
            if_neg (by simp [hq2, hq])]

theorem newTree_ok_elim {fs : FS} {o1 o2 : List Int} {t : Tree}
    (h : newTree fs o1 o2 = .ok t) :
    ∃ m m1, scanPhase fs = .ok m ∧ link m o1 = .ok m1 ∧
      t = ⟨sortPass m1 o2⟩ := by
  simp only [newTree] at h
  cases hm : scanPhase fs with
  | error e => simp [hm] at h
  | ok m =>
    simp only [hm] at h
    cases hl : link m o1 with
    | error e => simp [hl] at h
    | ok m1 =>
      simp only [hl] at h
      cases h
      exact ⟨m, m1, rfl, hl, rfl⟩

/-- Master characterization: on a successful build, the entry at `q` is the
scanned entry with, as children, the sorted list of the scanned pids whose
parent id is `q`. -/
theorem newTree_ok_lookup {fs : FS} {o1 o2 : List Int} {m : PMap} {t : Tree}
    (hm : scanPhase fs = .ok m) (_h1 : ValidOrder m o1) (h2 : ValidOrder m o2)
    (ht : newTree fs o1 o2 = .ok t) (q : Int) :
    pmLookup t.Procs q = (pmLookup m q).map
      (fun P =>
        { P with
          Children := sortInts (o1.filter (fun p => childB m p q)) }) := by
  obtain ⟨m', m1, hm', hl, hteq⟩ := newTree_ok_elim ht
  rw [hm] at hm'
  cases hm'
  obtain ⟨hnd, hk, hz, hf⟩ := scanPhase_wf hm
  have hlk := link_ok_lookup o1 m hk hz m1 hl
  have ho2nd : o2.Nodup := h2.nodup_iff.mpr hnd
  subst hteq
  show pmLookup (sortPass m1 o2) q = _
  rw [sortPass_lookup o2 m1 ho2nd q]
  by_cases hq : q ∈ o2
  · rw [if_pos hq, hlk q]
    cases hmq : pmLookup m q with
    | none => rfl
    | some P =>
      have hPc : P.Children = [] := hf q P hmq
      simp [hPc]
  · rw [if_neg hq]
    have hqk : q ∉ pmKeys m := fun hkk => hq (h2.mem_iff.mpr hkk)
    rw [hlk q, lookup_none_of_not_mem_pmKeys hqk]
    rfl

/-- When some scanned process has a nonzero parent id absent from the key
set, the build fails, and the error is the missing-parent message for some
such process. -/
theorem newTree_error_of_missing (fs : FS) (o1 o2 : List Int) {m : PMap}
    (hm : scanPhase fs = .ok m) (h1 : ValidOrder m o1)
    {c : Int} {C : Process} (hc : pmLookup m c = some C)
    (hpp : C.Stat.Ppid ≠ 0) (hmiss : pmLookup m C.Stat.Ppid = none) :
    ∃ c2 pp2 C2, newTree fs o1 o2 = .error (missingParentMsg pp2 c2) ∧
      pmLookup m c2 = some C2 ∧ C2.Stat.Ppid = pp2 ∧ pp2 ≠ 0 ∧
      pmLookup m pp2 = none := by
  obtain ⟨hnd, hk, hz, hf⟩ := scanPhase_wf hm
  cases hl : link m o1 with
  | ok m1 =>
    exfalso
    have hcmem : c ∈ o1 := h1.mem_iff.mpr (mem_pmKeys_of_lookup hc)
    have := link_ok_parent_exists o1 m hk hz m1 hl c hcmem C hc hpp
    rw [hmiss] at this
    simp at this
  | error e =>
    obtain ⟨pid, C2, hmem, hC2, hpp2, hmiss2, he⟩ :=
      link_error_missing o1 m hk hz e hl
    refine ⟨pid, C2.Stat.Ppid, C2, ?_, hC2, rfl, hpp2, hmiss2⟩
    simp only [newTree, hm, hl, he]

/-- Recover the scanned entry from a built entry (inverse reading of
`newTree_ok_lookup`). -/
theorem newTree_ok_lookup_inv {fs : FS} {o1 o2 : List Int} {m : PMap}
    {t : Tree} (hm : scanPhase fs = .ok m) (h1 : ValidOrder m o1)
    (h2 : ValidOrder m o2) (ht : newTree fs o1 o2 = .ok t) {q : Int}
    {Q : Process} (hq : pmLookup t.Procs q = some Q) :
    ∃ P, pmLookup m q = some P ∧ Q.Stat = P.Stat ∧ Q.Name = P.Name ∧
      Q.Children = sortInts (o1.filter (fun p => childB m p q)) := by
  have h := newTree_ok_lookup hm h1 h2 ht q
  rw [hq] at h
  cases hmq : pmLookup m q with
  | none => rw [hmq] at h; simp at h
  | some P =>
    rw [hmq] at h
    simp only [Option.map_some', Option.some_inj] at h
    exact ⟨P, rfl, by rw [h], by rw [h], by rw [h]⟩

theorem strData_append (a b : String) : (a ++ b).data = a.data ++ b.data := by
  cases a
  cases b
  rfl

theorem mentions_missingParentMsg (pp c : Int) :
    mentions (missingParentMsg pp c) (toString pp) ∧
    mentions (missingParentMsg pp c) (toString c) := by
  constructor
  · exact ⟨("pstree: parent pid=").data,
      (" of pid=" ++ toString c ++ " does not exist").data,
      by simp [missingParentMsg, strData_append]⟩
  · exact ⟨("pstree: parent pid=" ++ toString pp ++ " of pid=").data,
      (" does not exist").data,
      by simp [missingParentMsg, strData_append]⟩

theorem sorted_lt_of_le_nodup {l : List Int} (hs : l.Sorted (· ≤ ·))
    (hn : l.Nodup) : l.Sorted (· < ·) := by
  have hp := List.Pairwise.and hs hn
  exact hp.imp (fun h => lt_of_le_of_ne h.1 h.2)

/-! ## Tokens of the positional section vs the sequential scanner -/

theorem isDigit_not_scanSpace {c : Char} (h : c.isDigit = true) :
    scanIsSpace c = false := by
  cases hs : scanIsSpace c
  · rfl
  · exfalso
    simp only [scanIsSpace, Bool.or_eq_true, decide_eq_true_eq] at hs
    rcases hs with
      (((((((((((((((((((((((hs | hs) | hs) | hs) | hs) | hs) | hs) | hs) | hs) | hs) | hs) | hs) | hs) | hs) | hs) | hs) | hs) | hs) | hs) | hs) | hs) | hs) | hs) | hs) <;>
      subst hs <;> exact absurd h (by decide)

theorem head_dropWhile_not (p : Char → Bool) (l : List Char) :
    ∀ c, (l.dropWhile p).head? = some c → p c = false := by
  induction l with
  | nil => intro c hc; simp at hc
  | cons a as ih =>
    intro c hc
    by_cases hp : p a
    · rw [List.dropWhile_cons_of_pos hp] at hc
      exact ih c hc
    · rw [List.dropWhile_cons_of_neg hp] at hc
      simp at hc
      rw [← hc]
      exact Bool.of_not_eq_true hp

theorem mem_takeWhile_sat (p : Char → Bool) (l : List Char) :
    ∀ x ∈ l.takeWhile p, p x = true := by
  induction l with
  | nil => intro x hx; simp at hx
  | cons a as ih =>
    intro x hx
    by_cases hp : p a
    · rw [List.takeWhile_cons_of_pos hp] at hx
      rcases List.mem_cons.mp hx with rfl | hx2
      · exact hp
      · exact ih x hx2
    · rw [List.takeWhile_cons_of_neg hp] at hx
      simp at hx

theorem dropWhile_append_barrier (q : Char → Bool) (a b : List Char)
    (hb : ∀ c, b.head? = some c → q c = false) :
    (a ++ b).dropWhile q = a.dropWhile q ++ b := by
  induction a with
  | nil =>
    simp only [List.nil_append, List.dropWhile_nil]
    cases b with
    | nil => rfl
    | cons x xs => rw [List.dropWhile_cons_of_neg (by simp [hb x rfl])]
  | cons c cs ih =>
    by_cases hq : q c
    · rw [List.cons_append, List.dropWhile_cons_of_pos hq,
        List.dropWhile_cons_of_pos hq, ih]
    · rw [List.cons_append, List.dropWhile_cons_of_neg hq,
        List.dropWhile_cons_of_neg hq, List.cons_append]

theorem digitsVal_append (acc : Nat) (a b : List Char)
    (hb : ∀ c, b.head? = some c → c.isDigit = false) :
    digitsVal acc (a ++ b) = ((digitsVal acc a).1, (digitsVal acc a).2 ++ b) := by
  induction a generalizing acc with
  | nil =>
    simp only [List.nil_append, digitsVal]
    cases b with
    | nil => rfl
    | cons x xs => simp [digitsVal, hb x rfl]
  | cons c cs ih =>
    by_cases hd : c.isDigit
    · simp only [List.cons_append, digitsVal, hd, if_pos]
      exact ih _
    · simp [digitsVal, hd]

theorem parseUIntTok_append (a b : List Char)
    (hb : ∀ c, b.head? = some c → c.isDigit = false) :
    parseUIntTok (a ++ b) =
      (parseUIntTok a).map (fun vr => (vr.1, vr.2 ++ b)) := by
  cases a with
  | nil =>
    simp only [List.nil_append, parseUIntTok]
    cases b with
    | nil => rfl
    | cons x xs => simp [hb x rfl]
  | cons c cs =>
    simp only [List.cons_append, parseUIntTok]
    by_cases hd : c.isDigit
    · rw [if_pos hd, if_pos hd, ← List.cons_append, digitsVal_append 0 _ _ hb]
      rfl
    · rw [if_neg hd, if_neg hd]
      rfl

theorem parseIntTok_append (a b : List Char) (ha : a ≠ [])
    (hb : ∀ c, b.head? = some c → c.isDigit = false) :
    parseIntTok (a ++ b) =
      (parseIntTok a).map (fun vr => (vr.1, vr.2 ++ b)) := by
  cases a with
  | nil => exact absurd rfl ha
  | cons c cs =>
    simp only [List.cons_append, parseIntTok]
    by_cases hm : c = '-'
    · rw [if_pos hm, if_pos hm, parseUIntTok_append cs b hb]
      cases parseUIntTok cs <;> rfl
    · rw [if_neg hm, if_neg hm]
      by_cases hp : c = '+'
      · rw [if_pos hp, if_pos hp, parseUIntTok_append cs b hb]
        cases parseUIntTok cs <;> rfl
      · rw [if_neg hp, if_neg hp, ← List.cons_append,
          parseUIntTok_append (c :: cs) b hb]
        cases parseUIntTok (c :: cs) <;> rfl

theorem digitsVal_snd (acc : Nat) (l : List Char) :
    (digitsVal acc l).2 = l.dropWhile Char.isDigit := by
  induction l generalizing acc with
  | nil => rfl
  | cons c cs ih =>
    by_cases hd : c.isDigit
    · simp only [digitsVal, hd, if_pos, List.dropWhile_cons_of_pos hd]
      exact ih _
    · simp [digitsVal, hd, List.dropWhile_cons_of_neg hd]

theorem parseIntTok_some_suffix {s : List Char} {v : Int} {r : List Char}
    (h : parseIntTok s = some (v, r)) : r <:+ s := by
  cases s with
  | nil => simp [parseIntTok] at h
  | cons c cs =>
    have hu : ∀ t : List Char, ∀ w rr, parseUIntTok t = some (w, rr) →
        rr <:+ t := by
      intro t w rr ht
      cases t with
      | nil => simp [parseUIntTok] at ht
      | cons d ds =>
        simp only [parseUIntTok] at ht
        by_cases hd : d.isDigit
        · rw [if_pos hd] at ht
          have hinj := Option.some.inj ht
          have h2 : rr = (d :: ds).dropWhile Char.isDigit := by
            rw [← digitsVal_snd 0 (d :: ds), hinj]
          rw [h2]
          exact List.dropWhile_suffix _
        · rw [if_neg hd] at ht
          exact absurd ht (by simp)
    simp only [parseIntTok] at h
    by_cases hm : c = '-'
    · rw [if_pos hm] at h
      cases hp : parseUIntTok cs with
      | none => rw [hp] at h; simp at h
      | some vr =>
        rw [hp] at h
        simp only [Option.map_some', Option.some_inj] at h
        obtain ⟨h1, h2⟩ := Prod.mk.inj h
        rw [← h2]
        exact (hu cs vr.1 vr.2 (by rw [hp])).trans (List.suffix_cons _ _)
    · rw [if_neg hm] at h
      by_cases hp2 : c = '+'
      · rw [if_pos hp2] at h
        cases hp : parseUIntTok cs with
        | none => rw [hp] at h; simp at h
        | some vr =>
          rw [hp] at h
          simp only [Option.map_some', Option.some_inj] at h
          obtain ⟨h1, h2⟩ := Prod.mk.inj h
          rw [← h2]
          exact (hu cs vr.1 vr.2 (by rw [hp])).trans (List.suffix_cons _ _)
      · rw [if_neg hp2] at h
        cases hp : parseUIntTok (c :: cs) with
        | none => rw [hp] at h; simp at h
        | some vr =>
          rw [hp] at h
          simp only [Option.map_some', Option.some_inj] at h
          obtain ⟨h1, h2⟩ := Prod.mk.inj h
          rw [← h2]
          exact hu (c :: cs) vr.1 vr.2 (by rw [hp])

theorem fieldsFuncAux_acc_ne (p : Char → Bool) :
    ∀ (cs acc : List Char), acc ≠ [] →
    fieldsFuncAux p cs acc =
      (acc.reverse ++ cs.takeWhile (fun x => !p x)) ::
        fieldsFuncChars p (cs.dropWhile (fun x => !p x)) := by
  intro cs
  induction cs with
  | nil =>
    intro acc hacc
    simp [fieldsFuncAux, fieldsFuncChars, hacc]
  | cons c cs' ih =>
    intro acc hacc
    by_cases hp : p c
    · have hne : acc.isEmpty = false := by
        cases acc with
        | nil => exact absurd rfl hacc
        | cons a as => rfl
      have hL : fieldsFuncAux p (c :: cs') acc =
          acc.reverse :: fieldsFuncAux p cs' [] := by
        simp [fieldsFuncAux, hp, hne]
      rw [hL, List.takeWhile_cons_of_neg (by simp [hp]),
        List.dropWhile_cons_of_neg (by simp [hp]), List.append_nil]
      have hsep : fieldsFuncChars p (c :: cs') = fieldsFuncChars p cs' := by
        simp [fieldsFuncChars, fieldsFuncAux, hp]
      rw [hsep]
      rfl
    · have hL : fieldsFuncAux p (c :: cs') acc =
          fieldsFuncAux p cs' (c :: acc) := by
        simp [fieldsFuncAux, hp]
      rw [hL, ih (c :: acc) (by simp),
        List.takeWhile_cons_of_pos (by simp [hp]),
        List.dropWhile_cons_of_pos (by simp [hp])]
      simp

theorem tokens_sep {c : Char} (cs : List Char) (h : scanIsSpace c = true) :
    tokens (c :: cs) = tokens cs := by
  simp [tokens, fieldsFuncChars, fieldsFuncAux, h]

theorem tokens_tok {c : Char} (cs : List Char) (h : scanIsSpace c = false) :
    tokens (c :: cs) =
      (c :: cs.takeWhile (fun x => !scanIsSpace x)) ::
        tokens (cs.dropWhile (fun x => !scanIsSpace x)) := by
  have h0 : tokens (c :: cs) = fieldsFuncAux scanIsSpace cs [c] := by
    simp [tokens, fieldsFuncChars, fieldsFuncAux, h]
  rw [h0, fieldsFuncAux_acc_ne scanIsSpace cs [c] (by simp)]
  rfl

theorem tokens_dropWhile_sep (l : List Char) :
    tokens (l.dropWhile scanIsSpace) = tokens l := by
  induction l with
  | nil => rfl
  | cons c cs ih =>
    by_cases hc : scanIsSpace c
    · rw [List.dropWhile_cons_of_pos hc, tokens_sep cs hc]
      exact ih
    · rw [List.dropWhile_cons_of_neg hc]

theorem parseInts_head_not_space (n : Nat) (x : Char) (xs : List Char)
    (vs : List Int) (r : List Char)
    (h : parseInts (n + 1) (x :: xs) = some (vs, r)) :
    scanIsSpace x = true := by
  simp only [parseInts] at h
  by_cases hx : scanIsSpace x
  · exact hx
  · rw [if_neg hx] at h
    exact absurd h (by simp)

/-- A successful `Sscanf` integer loop certifies the token structure of its
input: at least `n` whitespace-separated fields, the first `n - 1` of them
wholly numeric, the `n`-th beginning with a numeral. -/
theorem parseInts_some_tokens : ∀ (n : Nat) (s : List Char) (vs : List Int)
    (r : List Char), parseInts n s = some (vs, r) →
    n ≤ (tokens s).length ∧
    (∀ j, j + 1 < n → tokNum ((tokens s).getD j []) = true) ∧
    (0 < n → startsNum ((tokens s).getD (n - 1) []) = true) := by
  intro n
  induction n with
  | zero =>
    intro s vs r _
    exact ⟨Nat.zero_le _, fun j hj => absurd hj (by omega),
      fun h0 => absurd h0 (by omega)⟩
  | succ n ih =>
    intro s vs r h
    cases s with
    | nil => exact absurd h (by simp [parseInts])
    | cons c s' =>
      have hc : scanIsSpace c = true := parseInts_head_not_space n c s' vs r h
      simp only [parseInts] at h
      rw [if_pos hc] at h
      cases hpit : parseIntTok (s'.dropWhile scanIsSpace) with
      | none => simp only [hpit] at h; exact absurd h (by simp)
      | some vr =>
        obtain ⟨v1, r1⟩ := vr
        simp only [hpit] at h
        cases hrec : parseInts n r1 with
        | none => simp only [hrec] at h; exact absurd h (by simp)
        | some vsr =>
          obtain ⟨vs2, r2⟩ := vsr
          have hts : tokens (c :: s') = tokens (s'.dropWhile scanIsSpace) := by
            rw [tokens_sep s' hc, tokens_dropWhile_sep s']
          cases hs'' : s'.dropWhile scanIsSpace with
          | nil => rw [hs''] at hpit; exact absurd hpit (by simp [parseIntTok])
          | cons d tail =>
            have hd : scanIsSpace d = false :=
              head_dropWhile_not scanIsSpace s' d (by rw [hs'']; rfl)
            have htok : tokens (d :: tail) =
                (d :: tail.takeWhile (fun x => !scanIsSpace x)) ::
                  tokens (tail.dropWhile (fun x => !scanIsSpace x)) :=
              tokens_tok tail hd
            have hbrest : ∀ x,
                (tail.dropWhile (fun x => !scanIsSpace x)).head? = some x →
                x.isDigit = false := by
              intro x hx
              have hsp := head_dropWhile_not (fun x => !scanIsSpace x) tail x hx
              have hsp2 : scanIsSpace x = true := by
                have hsp' : (!scanIsSpace x) = false := hsp
                cases hxx : scanIsSpace x
                · rw [hxx] at hsp'; simp at hsp'
                · rfl
              cases hdig : x.isDigit
              · rfl
              · rw [isDigit_not_scanSpace hdig] at hsp2
                exact absurd hsp2 (by simp)
            have hsplit : d :: tail =
                (d :: tail.takeWhile (fun x => !scanIsSpace x)) ++
                  tail.dropWhile (fun x => !scanIsSpace x) := by
              rw [List.cons_append, List.takeWhile_append_dropWhile]
            rw [hs''] at hpit
            rw [hsplit, parseIntTok_append _ _ (by simp) hbrest] at hpit
            cases hptok : parseIntTok
                (d :: tail.takeWhile (fun x => !scanIsSpace x)) with
            | none => rw [hptok] at hpit; exact absurd hpit (by simp)
            | some vr0 =>
              obtain ⟨v0, r0⟩ := vr0
              rw [hptok] at hpit
              simp only [Option.map_some', Option.some_inj] at hpit
              obtain ⟨hv01, hr01⟩ := Prod.mk.inj hpit
              cases n with
              | zero =>
                refine ⟨?_, ?_, ?_⟩
                · rw [hts, hs'', htok]
                  simp
                · intro j hj
                  omega
                · intro _
                  rw [hts, hs'', htok]
                  simp [startsNum, hptok]
              | succ n2 =>
                have hr0 : r0 = [] := by
                  cases hr0c : r0 with
                  | nil => rfl
                  | cons y ys =>
                    exfalso
                    have hysuff : r0 <:+
                        (d :: tail.takeWhile (fun x => !scanIsSpace x)) :=
                      parseIntTok_some_suffix hptok
                    have hymem : y ∈
                        d :: tail.takeWhile (fun x => !scanIsSpace x) := by
                      apply hysuff.subset
                      rw [hr0c]
                      exact List.mem_cons_self _ _
                    have hy : scanIsSpace y = false := by
                      rcases List.mem_cons.mp hymem with rfl | hm2
                      · exact hd
                      · have := mem_takeWhile_sat
                          (fun x => !scanIsSpace x) tail y hm2
                        simpa using this
                    rw [← hr01, hr0c, List.cons_append] at hrec
                    have hsp := parseInts_head_not_space n2 y _ vs2 r2 hrec
                    rw [hy] at hsp
                    exact Bool.noConfusion hsp
                have htn : tokNum
                    (d :: tail.takeWhile (fun x => !scanIsSpace x)) = true := by
                  simp [tokNum, hptok, hr0]
                have hr1 : r1 = tail.dropWhile (fun x => !scanIsSpace x) := by
                  rw [← hr01, hr0, List.nil_append]
                obtain ⟨hlen, htoks, hlast⟩ := ih r1 vs2 r2 hrec
                rw [hr1] at hlen htoks hlast
                refine ⟨?_, ?_, ?_⟩
                · rw [hts, hs'', htok]
                  simpa using Nat.succ_le_succ hlen
                · intro j hj
                  rw [hts, hs'', htok]
                  cases j with
                  | zero => simpa using htn
                  | succ j2 =>
                    have := htoks j2 (by omega)
                    simpa using this
                · intro _
                  rw [hts, hs'', htok]
                  have := hlast (by omega)
                  simpa using this

theorem scanSpace_le_go {c : Char} (h : scanIsSpace c = true) :
    goIsSpace c = true := by
  simp only [scanIsSpace, Bool.or_eq_true, decide_eq_true_eq] at h
  rcases h with
    (((((((((((((((((((((((h | h) | h) | h) | h) | h) | h) | h) | h) | h) | h) | h) | h) | h) | h) | h) | h) | h) | h) | h) | h) | h) | h) | h) <;>
    subst h <;> decide

theorem trimChars_prefix (l : List Char) :
    trimChars l <+: l.dropWhile goIsSpace := by
  have h1 : (l.dropWhile goIsSpace).reverse.dropWhile goIsSpace <:+
      (l.dropWhile goIsSpace).reverse := List.dropWhile_suffix _
  have h2 := List.reverse_prefix.mpr h1
  rw [List.reverse_reverse] at h2
  exact h2

theorem trimChars_head (l : List Char) :
    ∀ c, (trimChars l).head? = some c → scanIsSpace c = false := by
  intro c hc
  obtain ⟨t, ht⟩ := trimChars_prefix l
  have hA : (l.dropWhile goIsSpace).head? = some c := by
    rw [← ht]
    cases htl : trimChars l with
    | nil => rw [htl] at hc; simp at hc
    | cons a as =>
      rw [htl] at hc
      simp only [List.head?_cons, Option.some_inj] at hc
      rw [List.cons_append, List.head?_cons, hc]
  have hgo := head_dropWhile_not goIsSpace l c hA
  cases hx : scanIsSpace c
  · rfl
  · rw [scanSpace_le_go hx] at hgo
    exact Bool.noConfusion hgo

/-- A successful `Sscanf` of the whole `statfmt` tail certifies the 22-field
token structure. -/
theorem parseStatTail_some_tokens (s : List Char) (st : Char)
    (vs : List Int) (hhead : ∀ c, s.head? = some c → scanIsSpace c = false)
    (h : parseStatTail s = some (st, vs)) :
    22 ≤ (tokens s).length ∧
    (∀ j, 1 ≤ j → j < 21 → tokNum ((tokens s).getD j []) = true) ∧
    startsNum ((tokens s).getD 21 []) = true := by
  cases s with
  | nil => simp [parseStatTail] at h
  | cons c s' =>
    have hc : scanIsSpace c = false := hhead c rfl
    simp only [parseStatTail] at h
    cases hpi : parseInts 21 s' with
    | none => simp only [hpi] at h; exact absurd h (by simp)
    | some vr =>
      obtain ⟨vs0, r0⟩ := vr
      obtain ⟨hlen, htoks, hlast⟩ := parseInts_some_tokens 21 s' vs0 r0 hpi
      cases hs' : s' with
      | nil =>
        rw [hs'] at hpi
        have hnone : parseInts 21 ([] : List Char) = none := rfl
        rw [hnone] at hpi
        exact Option.noConfusion hpi
      | cons x tail' =>
        have hx : scanIsSpace x = true := by
          rw [hs'] at hpi
          exact parseInts_head_not_space 20 x tail' vs0 r0 hpi
        have htok : tokens (c :: s') = [c] :: tokens s' := by
          rw [tokens_tok s' hc, hs',
            List.takeWhile_cons_of_neg (by simp [hx]),
            List.dropWhile_cons_of_neg (by simp [hx])]
        rw [← hs']
        refine ⟨?_, ?_, ?_⟩
        · rw [htok]
          simpa using Nat.succ_le_succ hlen
        · intro j h1 h2
          rw [htok]
          obtain ⟨j', rfl⟩ : ∃ j', j = j' + 1 := ⟨j - 1, by omega⟩
          have := htoks j' (by omega)
          simpa using this
        · rw [htok]
          have := hlast (by omega)
          simpa using this

theorem scan_fields_ne3 (fs : FS) (dir : String) (data : String)
    (h : fs.statf dir = .ok data)
    (hne : (fieldsFuncChars parenSep data.data).length ≠ 3) :
    scan fs dir = .error (join2 dir "stat" ++ ": file format invalid") := by
  simp only [scan, h]
  split
  next i0 i1 i2 heq =>
    exact absurd (show (fieldsFuncChars parenSep data.data).length = 3 by
      rw [heq]; rfl) hne
  next => rfl

theorem scan_tail_bad (fs : FS) (dir : String) (data : String)
    (i0 i1 i2 : List Char) (h : fs.statf dir = .ok data)
    (hinfo : fieldsFuncChars parenSep data.data = [i0, i1, i2])
    (htail : parseStatTail (trimChars i2) = none) :
    ∃ e, scan fs dir = .error e ∧ mentions e (join2 dir "stat") := by
  cases hat : goAtoi (trimChars i0) with
  | none =>
    have hscan : scan fs dir = .error (join2 dir "stat" ++
        ": invalid pid format \"" ++ String.mk (trimChars i0) ++ "\"") := by
      simp only [scan, h, hinfo, hat]
    refine ⟨_, hscan, ⟨[], ((": invalid pid format \"" ++
      String.mk (trimChars i0) ++ "\"").data), by simp [strData_append]⟩⟩
  | some pid =>
    have hscan : scan fs dir =
        .error ("could not parse file " ++ join2 dir "stat") := by
      simp only [scan, h, hinfo, hat, htail]
    exact ⟨_, hscan, ⟨("could not parse file ").data, [],
      by simp [strData_append]⟩⟩

theorem scanGo_error_mem (fs : FS) (dir : String) (e : String)
    (he : scan fs dir = .error e) :
    ∀ (ds : List String) (m : PMap), dir ∈ ds →
      exOk (scanGo fs ds m) = false := by
  intro ds
  induction ds with
  | nil => intro m hmem; simp at hmem
  | cons d ds' ih =>
    intro m hmem
    rcases List.mem_cons.mp hmem with rfl | hmem2
    · simp [scanGo, he, exOk]
    · cases hsc : scan fs d with
      | error e2 => simp [scanGo, hsc, exOk]
      | ok proc =>
        by_cases hp : proc.Stat.PID = 0
        · simp only [scanGo, hsc, if_pos hp]
          exact ih m hmem2
        · simp only [scanGo, hsc, if_neg hp]
          exact ih _ hmem2

/-! ## The claims -/

/-- C2: in every Tree returned by a successful build, a process with a
nonzero parent id that is a key appears in that parent's children exactly
once; every children list is sorted strictly ascending (hence no
duplicates); and every entry of a children list is a key whose process has
that parent id. -/
theorem claim_C2 (fs : FS) (o1 o2 : List Int) {m : PMap} {t : Tree}
    (hm : scanPhase fs = .ok m) (h1 : ValidOrder m o1)
    (h2 : ValidOrder m o2) (ht : newTree fs o1 o2 = .ok t) :
    (∀ p P Q, pmLookup t.Procs p = some P → P.Stat.Ppid ≠ 0 →
      pmLookup t.Procs P.Stat.Ppid = some Q → Q.Children.count p = 1) ∧
    (∀ q Q, pmLookup t.Procs q = some Q → Q.Children.Sorted (· < ·)) ∧
    (∀ q Q c, pmLookup t.Procs q = some Q → c ∈ Q.Children →
      ∃ C, pmLookup t.Procs c = some C ∧ C.Stat.Ppid = q) := by
  obtain ⟨hnd, hk, hz, hf⟩ := scanPhase_wf hm
  have ho1nd : o1.Nodup := h1.nodup_iff.mpr hnd
  refine ⟨?_, ?_, ?_⟩
  · intro p P Q hp hpp hq
    obtain ⟨P0, hmp, hPs, _, _⟩ := newTree_ok_lookup_inv hm h1 h2 ht hp
    obtain ⟨Q0, hmq, _, _, hQc⟩ := newTree_ok_lookup_inv hm h1 h2 ht hq
    have hcb : childB m p P.Stat.Ppid = true := by
      simp [childB, hmp, ← hPs]
    have hpmem : p ∈ o1 := h1.mem_iff.mpr (mem_pmKeys_of_lookup hmp)
    rw [hQc, List.Perm.count_eq (sortInts_perm _)]
    exact List.count_eq_one_of_mem (ho1nd.filter _)
      (List.mem_filter.mpr ⟨hpmem, hcb⟩)
  · intro q Q hq
    obtain ⟨Q0, _, _, _, hQc⟩ := newTree_ok_lookup_inv hm h1 h2 ht hq
    rw [hQc]
    refine sorted_lt_of_le_nodup (sortInts_sorted _) ?_
    exact ((sortInts_perm _).nodup_iff).mpr (ho1nd.filter _)
  · intro q Q c hq hc
    obtain ⟨Q0, hmq, _, _, hQc⟩ := newTree_ok_lookup_inv hm h1 h2 ht hq
    rw [hQc] at hc
    have hc2 : c ∈ o1.filter (fun p => childB m p q) :=
      ((sortInts_perm _).mem_iff).mp hc
    obtain ⟨hco1, hcb⟩ := List.mem_filter.mp hc2
    simp only [childB] at hcb
    cases hmc : pmLookup m c with
    | none => rw [hmc] at hcb; simp at hcb
    | some C0 =>
      rw [hmc] at hcb
      simp only [decide_eq_true_eq] at hcb
      have hfwd := newTree_ok_lookup hm h1 h2 ht c
      rw [hmc] at hfwd
      simp only [Option.map_some'] at hfwd
      exact ⟨_, hfwd, hcb⟩

/-- Witness for C2 at a concrete backing state. -/
theorem claim_C2_witness :
    ∃ Q, pmLookup (getTree (newTree fsTriple [1, 2, 3] [1, 2, 3])).Procs 1 =
        some Q ∧
      Q.Children.count 2 = 1 ∧ Q.Children.Sorted (· < ·) := by
  have h := claim_C2 fsTriple [1, 2, 3] [1, 2, 3] rfl (by decide) (by decide)
    rfl
  refine ⟨_, rfl, ?_, ?_⟩
  · exact h.1 2 _ _ rfl (by decide) rfl
  · exact h.2.1 1 _ rfl

/-- C3: if some scanned process has a nonzero parent id that is not a key,
the build fails with the missing-parent error naming both the missing parent
id and the child id, and no Tree is returned. -/
theorem claim_C3 (fs : FS) (o1 o2 : List Int) (c : Int) {m : PMap}
    (hm : scanPhase fs = .ok m) (h1 : ValidOrder m o1)
    (hbad : badParent m c = true) :
    ∃ c2 pp2, newTree fs o1 o2 = .error (missingParentMsg pp2 c2) ∧
      mentions (missingParentMsg pp2 c2) (toString pp2) ∧
      mentions (missingParentMsg pp2 c2) (toString c2) ∧
      (∃ C2, pmLookup m c2 = some C2 ∧ C2.Stat.Ppid = pp2 ∧ pp2 ≠ 0 ∧
        pmLookup m pp2 = none) ∧
      ∀ t, newTree fs o1 o2 ≠ .ok t := by
  have hunpack : ∃ C, pmLookup m c = some C ∧ C.Stat.Ppid ≠ 0 ∧
      pmLookup m C.Stat.Ppid = none := by
    simp only [badParent] at hbad
    cases hc : pmLookup m c with
    | none => rw [hc] at hbad; simp at hbad
    | some C =>
      rw [hc] at hbad
      simp only [Bool.and_eq_true, Bool.not_eq_true', decide_eq_false_iff_not,
        Option.isNone_iff_eq_none] at hbad
      exact ⟨C, rfl, hbad.1, hbad.2⟩
  obtain ⟨C, hc, hpp, hmiss⟩ := hunpack
  obtain ⟨c2, pp2, C2, he, hC2, hpp2eq, hppne, hmiss2⟩ :=
    newTree_error_of_missing fs o1 o2 hm h1 hc hpp hmiss
  refine ⟨c2, pp2, he, (mentions_missingParentMsg pp2 c2).1,
    (mentions_missingParentMsg pp2 c2).2,
    ⟨C2, hC2, hpp2eq, hppne, hmiss2⟩, fun t hht => ?_⟩
  rw [he] at hht
  exact Except.noConfusion hht

/-- Witness for C3: a single scanned process with parent id 9 never
scanned. -/
theorem claim_C3_witness :
    ∃ c2 pp2, newTree fsOrphan [7] [7] = .error (missingParentMsg pp2 c2) ∧
      mentions (missingParentMsg pp2 c2) (toString pp2) ∧
      mentions (missingParentMsg pp2 c2) (toString c2) := by
  obtain ⟨c2, pp2, he, hn1, hn2, _, _⟩ :=
    claim_C3 fsOrphan [7] [7] 7 rfl (by decide) (by decide)
  exact ⟨c2, pp2, he, hn1, hn2⟩

/-- C4: an unreadable primary record yields the sentinel `Process{}` with
identifier 0 and no error, and the scan loop of the build skips that
directory entirely. -/
theorem claim_C4 (fs : FS) (dir : String) (err : ReadErr)
    (h : fs.statf dir = .error err) :
    scan fs dir = .ok {} ∧ ({} : Process).Stat.PID = 0 ∧
    ∀ (rest : List String) (m : PMap),
      scanGo fs (dir :: rest) m = scanGo fs rest m := by
  have hscan : scan fs dir = .ok {} := by
    simp [scan, h]
  refine ⟨hscan, rfl, fun rest m => ?_⟩
  simp [scanGo, hscan]

/-- Witness for C4 at a concrete backing state. -/
theorem claim_C4_witness :
    scan fsVanished "p9" = .ok {} ∧
    scanGo fsVanished ["p9"] [] = scanGo fsVanished [] [] := by
  have h := claim_C4 fsVanished "p9" .notFound rfl
  exact ⟨h.1, h.2.2 [] []⟩

/-- C6, counterexample: a permission-denied read of the command line is NOT
tolerated: scan fails (naming the cmdline path) even though the claim
demands silent tolerance for each of the three auxiliary fields. -/
theorem claim_C6_counterexample :
    fsAuxPerm.cmdline "p1" = .error .permission ∧
    exErr (scan fsAuxPerm "p1") = some ("could not read p1/cmdline") := by
  constructor
  · rfl
  · decide

/-- C6, amended: permission-denied reads of the environment block and the
working directory are silently tolerated (the fields keep their previous,
empty, value and no error arises from them), but any failure reading the
command line — including permission-denied — aborts the scan with an error
naming the cmdline path. -/
theorem claim_C6_amended (fs : FS) (dir : String) (p0 : Process)
    (henv : fs.environ dir = .error .permission)
    (hcwd : fs.cwdStat dir = .error .permission) :
    (∀ args, fs.cmdline dir = .ok args →
      scanAux fs dir p0 =
        .ok { p0 with Stat := { p0.Stat with Cmdline := base64encStr args } }) ∧
    (∀ e, fs.cmdline dir = .error e →
      scanAux fs dir p0 = .error ("could not read " ++ join2 dir "cmdline")) := by
  constructor
  · intro args hargs
    simp [scanAux, henv, hcwd, hargs]
  · intro e he
    simp [scanAux, henv, hcwd, he]

/-- Witness for the amended C6. -/
theorem claim_C6_witness :
    scanAux fsAuxPerm2 "p1" {} =
      .ok { ({} : Process) with
        Stat := { ({} : Process).Stat with Cmdline := base64encStr "" } } ∧
    scanAux fsAuxPerm "p1" {} =
      .error ("could not read " ++ join2 "p1" "cmdline") :=
  ⟨(claim_C6_amended fsAuxPerm2 "p1" {} rfl rfl).1 "" rfl,
   (claim_C6_amended fsAuxPerm "p1" {} rfl rfl).2 .permission rfl⟩

/-- C7: with exactly the three scanned processes 1, 2, 3 of parent ids
0, 1, 1, the build succeeds for every iteration order and yields children
[2, 3] for 1 and [] for 2 and 3. -/
theorem claim_C7 (o1 o2 : List Int) (h1 : ValidOrder mTriple o1)
    (h2 : ValidOrder mTriple o2) :
    ∃ t, newTree fsTriple o1 o2 = .ok t ∧
      (pmLookup t.Procs 1).map Process.Children = some [2, 3] ∧
      (pmLookup t.Procs 2).map Process.Children = some [] ∧
      (pmLookup t.Procs 3).map Process.Children = some [] := by
  have hm : scanPhase fsTriple = .ok mTriple := rfl
  obtain ⟨hnd, hk, hz, hf⟩ := scanPhase_wf hm
  cases hnt : newTree fsTriple o1 o2 with
  | error e =>
    exfalso
    simp only [newTree, hm] at hnt
    cases hl : link mTriple o1 with
    | ok m1 => simp [hl] at hnt
    | error e0 =>
      obtain ⟨pid, C, hmem, hC, hppC, hmissC, _⟩ :=
        link_error_missing o1 mTriple hk hz e0 hl
      have hbp : badParent mTriple pid = true := by
        simp [badParent, hC, hppC, hmissC]
      have hpidk : pid ∈ pmKeys mTriple := mem_pmKeys_of_lookup hC
      have hall : ∀ k ∈ pmKeys mTriple, badParent mTriple k = false := by
        decide
      rw [hall pid hpidk] at hbp
      exact Bool.noConfusion hbp
  | ok t =>
    have hmas := fun q => newTree_ok_lookup hm h1 h2 hnt q
    have hkeys : pmKeys mTriple = [1, 2, 3] := by decide
    have ho1 : o1.Perm [1, 2, 3] := hkeys ▸ h1
    have hflt : ∀ q : Int,
        sortInts (o1.filter (fun p => childB mTriple p q)) =
          sortInts ([1, 2, 3].filter (fun p => childB mTriple p q)) :=
      fun q => sortInts_eq_of_perm (ho1.filter _)
    refine ⟨t, rfl, ?_, ?_, ?_⟩
    · rw [hmas 1]
      simp only [hflt 1]
      decide
    · rw [hmas 2]
      simp only [hflt 2]
      decide
    · rw [hmas 3]
      simp only [hflt 3]
      decide

/-- Witness for C7 at a fixed iteration order. -/
theorem claim_C7_witness :
    ∃ t, newTree fsTriple [3, 1, 2] [2, 3, 1] = .ok t ∧
      (pmLookup t.Procs 1).map Process.Children = some [2, 3] ∧
      (pmLookup t.Procs 2).map Process.Children = some [] ∧
      (pmLookup t.Procs 3).map Process.Children = some [] :=
  claim_C7 [3, 1, 2] [2, 3, 1] (by decide) (by decide)

/-- C8: the successful build is a function of the backing state alone: for
any two valid iteration orders, the resulting trees agree on every lookup
and have the same key sets. -/
theorem claim_C8 (fs : FS) (o1 o2 o1' o2' : List Int) {m : PMap}
    {t t' : Tree} (hm : scanPhase fs = .ok m) (h1 : ValidOrder m o1)
    (h2 : ValidOrder m o2) (h1' : ValidOrder m o1')
    (h2' : ValidOrder m o2') (ht : newTree fs o1 o2 = .ok t)
    (ht' : newTree fs o1' o2' = .ok t') :
    (∀ q, pmLookup t.Procs q = pmLookup t'.Procs q) ∧
    (∀ q, q ∈ pmKeys t.Procs ↔ q ∈ pmKeys t'.Procs) := by
  have hlook : ∀ q, pmLookup t.Procs q = pmLookup t'.Procs q := by
    intro q
    rw [newTree_ok_lookup hm h1 h2 ht q, newTree_ok_lookup hm h1' h2' ht' q]
    cases hmq : pmLookup m q with
    | none => rfl
    | some P =>
      simp only [Option.map_some', Option.some_inj]
      have : sortInts (o1.filter (fun p => childB m p q)) =
          sortInts (o1'.filter (fun p => childB m p q)) :=
        sortInts_eq_of_perm ((h1.trans h1'.symm).filter _)
      rw [this]
  refine ⟨hlook, fun q => ?_⟩
  constructor
  · intro hmem
    have hs := lookup_isSome_of_mem_pmKeys hmem
    rw [hlook q] at hs
    cases hL : pmLookup t'.Procs q with
    | none => rw [hL] at hs; simp at hs
    | some P => exact mem_pmKeys_of_lookup hL
  · intro hmem
    have hs := lookup_isSome_of_mem_pmKeys hmem
    rw [← hlook q] at hs
    cases hL : pmLookup t.Procs q with
    | none => rw [hL] at hs; simp at hs
    | some P => exact mem_pmKeys_of_lookup hL

/-- Witness for C8: two different iteration orders, same lookup. -/
theorem claim_C8_witness :
    pmLookup (getTree (newTree fsTriple [1, 2, 3] [1, 2, 3])).Procs 1 =
      pmLookup (getTree (newTree fsTriple [3, 2, 1] [2, 1, 3])).Procs 1 := by
  have h := claim_C8 fsTriple [1, 2, 3] [1, 2, 3] [3, 2, 1] [2, 1, 3] rfl
    (by decide) (by decide) (by decide) (by decide) rfl rfl
  exact h.1 1

/-- C9: identifier 0 is never a key of a successfully built tree. -/
theorem claim_C9 (fs : FS) (o1 o2 : List Int) {m : PMap} {t : Tree}
    (hm : scanPhase fs = .ok m) (h1 : ValidOrder m o1)
    (h2 : ValidOrder m o2) (ht : newTree fs o1 o2 = .ok t) :
    pmLookup t.Procs 0 = none ∧ 0 ∉ pmKeys t.Procs := by
  obtain ⟨hnd, hk, hz, hf⟩ := scanPhase_wf hm
  have h := newTree_ok_lookup hm h1 h2 ht 0
  have hm0 : pmLookup m 0 = none := by
    cases hq : pmLookup m 0 with
    | none => rfl
    | some P => exact absurd rfl (hz 0 P hq)
  rw [hm0] at h
  refine ⟨h, fun hmem => ?_⟩
  have hs := lookup_isSome_of_mem_pmKeys hmem
  rw [h] at hs
  simp at hs

/-- Witness for C9 at a concrete backing state. -/
theorem claim_C9_witness :
    pmLookup (getTree (newTree fsTriple [1, 2, 3] [1, 2, 3])).Procs 0 =
      none :=
  (claim_C9 fsTriple [1, 2, 3] [1, 2, 3] rfl (by decide) (by decide) rfl).1

/-- C10: a successfully built tree is consistently keyed: the process stored
under key `p` carries `p` in its own pid field. -/
theorem claim_C10 (fs : FS) (o1 o2 : List Int) {m : PMap} {t : Tree}
    (hm : scanPhase fs = .ok m) (h1 : ValidOrder m o1)
    (h2 : ValidOrder m o2) (ht : newTree fs o1 o2 = .ok t) :
    ∀ p P, pmLookup t.Procs p = some P → P.Stat.PID = p := by
  obtain ⟨hnd, hk, hz, hf⟩ := scanPhase_wf hm
  intro p P hp
  obtain ⟨P0, hmp, hPs, _, _⟩ := newTree_ok_lookup_inv hm h1 h2 ht hp
  rw [hPs]
  exact hk p P0 hmp

/-- C1 (code bug): on the round-trip record whose name embeds `)` and
whitespace, the spec requires a successful parse with the name taken between
the first `(` and the last `)`; the code instead splits the record at every
parenthesis (five parts, not three) and rejects it as malformed, so the scan
fails and no Process is produced. -/
theorem claim_C1_bug :
    (fieldsFuncChars parenSep recParens.data).length = 5 ∧
    exErr (scan fsParens "p42") = some ("p42/stat: file format invalid") ∧
    exOk (scan fsParens "p42") = false := by decide

/-- C5, counterexample: a record whose 22nd positional field is the
non-numeric value `7x` is accepted by scan (storing rss 7, the numeric
prefix), although the claim demands a structural parse error for every
non-numeric value in a numeric field. -/
theorem claim_C5_counterexample :
    tokNum ((tokens (trimChars
        ((fieldsFuncChars parenSep recTrailingJunk.data).getD 2 []))).getD 21
        []) = false ∧
    exOk (scan fsTrailingJunk "p5") = true ∧
    (scan fsTrailingJunk "p5").toOption.map (fun p => p.Stat.RSS) = some 7 := by
  decide

/-- C5, amended: for every readable primary record, a malformed parenthesis
structure, a positional section with fewer than 22 whitespace-separated
fields, a non-numeric value in one of the non-final numeric fields, or a
final field not beginning with a numeral, makes scan fail with an error
naming the source path, and the scan loop of the build then fails as well
(so no partially populated Process is ever stored).  The only deviation
from the claim as written is the final field, where a non-numeric suffix
after a valid numeral is ignored (see the counterexample). -/
theorem claim_C5_amended (fs : FS) (dir : String) (data : String)
    (h : fs.statf dir = .ok data)
    (hbad :
      (fieldsFuncChars parenSep data.data).length ≠ 3 ∨
      ∃ i0 i1 i2, fieldsFuncChars parenSep data.data = [i0, i1, i2] ∧
        ((tokens (trimChars i2)).length < 22 ∨
         (∃ j, 1 ≤ j ∧ j < 21 ∧
            tokNum ((tokens (trimChars i2)).getD j []) = false) ∨
         startsNum ((tokens (trimChars i2)).getD 21 []) = false)) :
    ∃ e, scan fs dir = .error e ∧ mentions e (join2 dir "stat") ∧
      ∀ (ds : List String) (m : PMap), dir ∈ ds →
        exOk (scanGo fs ds m) = false := by
  have key : ∃ e, scan fs dir = .error e ∧ mentions e (join2 dir "stat") := by
    rcases hbad with hne | ⟨i0, i1, i2, hinfo, hts⟩
    · exact ⟨_, scan_fields_ne3 fs dir data h hne,
        ⟨[], (": file format invalid").data, by simp [strData_append]⟩⟩
    · have htail : parseStatTail (trimChars i2) = none := by
        cases ht : parseStatTail (trimChars i2) with
        | none => rfl
        | some sv =>
          exfalso
          obtain ⟨st, vs⟩ := sv
          obtain ⟨hlen, htoks, hlast⟩ :=
            parseStatTail_some_tokens (trimChars i2) st vs
              (trimChars_head i2) ht
          rcases hts with hlt | ⟨j, hj1, hj2, hjf⟩ | hsf
          · omega
          · rw [htoks j hj1 hj2] at hjf
            exact Bool.noConfusion hjf
          · rw [hlast] at hsf
            exact Bool.noConfusion hsf
      exact scan_tail_bad fs dir data i0 i1 i2 h hinfo htail
  obtain ⟨e, he, hmen⟩ := key
  exact ⟨e, he, hmen, scanGo_error_mem fs dir e he⟩

/-- Witness for the amended C5: a record with only 5 positional fields. -/
theorem claim_C5_witness :
    ∃ e, scan fsShort "p6" = .error e ∧ mentions e (join2 "p6" "stat") ∧
      exOk (scanGo fsShort ["p6"] []) = false := by
  obtain ⟨e, he, hmen, hgo⟩ := claim_C5_amended fsShort "p6" recShort rfl
    (Or.inr ⟨_, _, _, rfl, Or.inl (by decide)⟩)
  exact ⟨e, he, hmen, hgo ["p6"] [] (by simp)⟩

/-- Witness for C10 at a concrete backing state. -/
theorem claim_C10_witness :
    ∃ P, pmLookup (getTree (newTree fsTriple [1, 2, 3] [1, 2, 3])).Procs 2 =
        some P ∧ P.Stat.PID = 2 := by
  have h := claim_C10 fsTriple [1, 2, 3] [1, 2, 3] rfl (by decide) (by decide)
    rfl
  exact ⟨_, rfl, h 2 _ rfl⟩

end Pstree
